import Mathlib

/-! Shallow embedding of the midstring repository (src/src/lib.rs).

Strings are modelled as lists of byte values (natural numbers; all byte
positions hold values below 256 in practice).  The Rust core
(the_original_algorith_with_ascii_digits) pushes a 0 terminator onto each
input vector and walks both vectors with a single index; the three while
loops only move forward, so the walk is re-expressed structurally on the
list suffixes, which is value-for-value the same computation.  A Rust
panic (an index out of bounds, or u8 arithmetic overflow/underflow under
the checked semantics of the source arithmetic) is modelled as none. -/

namespace Midstring

/-- Byte value of the letter a (0x61), constant A of the source. -/
def A : Nat := 0x61

/-- Byte value of the letter b (0x62), constant B of the source. -/
def B : Nat := 0x62

/-- Byte value of the letter z (0x7A), constant Z of the source. -/
def Z : Nat := 0x7A

/-- Value obtained when the algorithm reads the first byte of the given
suffix of prev (with the pushed terminator already stripped): a missing or
zero byte is the left sentinel A - 1, as in
  if prev[len] != 0 { prev[len] } else { A - 1 }. -/
def vP (l : List Nat) : Nat :=
  match l with
  | [] => A - 1
  | b :: _ => if b = 0 then A - 1 else b

/-- Value obtained when the algorithm reads the first byte of the given
suffix of next: a missing or zero byte is the right sentinel Z + 1, as in
  if next[len] != 0 { next[len] } else { Z + 1 }. -/
def vN (l : List Nat) : Nat :=
  match l with
  | [] => Z + 1
  | b :: _ => if b = 0 then Z + 1 else b

/-- First loop of the source (copy identical part), on the suffixes of
prev ++ [0] and next ++ [0] that start at the current index.  Returns the
values p and n at the first divergence together with the bytes pushed onto
buf; returns none when the index runs past the end of either vector (the
Rust indexing panic). -/
def loop1' : List Nat → List Nat → Option (Nat × Nat × List Nat)
  | pb :: pt, nb :: nt =>
    let p := if pb = 0 then A - 1 else pb
    let n := if nb = 0 then Z + 1 else nb
    if p = n then
      match loop1' pt nt with
      | some (pf, nf, buf) => some (pf, nf, p :: buf)
      | none => none
    else
      some (p, n, [])
  | _, _ => none

/-- Second loop of the source (handle a run of a in next, reached when the
left string has ended).  The list argument is the suffix of next ++ [0]
just after the position where n was read.  Returns the final n and the
bytes pushed; none models the indexing panic. -/
def loopA' : List Nat → Nat → Option (Nat × List Nat)
  | nt, n =>
    if n = A then
      match nt with
      | nb :: nt' =>
        let n' := if nb = 0 then Z + 1 else nb
        match loopA' nt' n' with
        | some (nf, buf) => some (nf, A :: buf)
        | none => none
      | [] => none
    else
      some (n, [])

/-- Third loop of the source (handle a run of z in prev, in the
consecutive-characters branch).  The list argument is the suffix of
prev ++ [0] just after the position where p was read.  Returns the final p
and the bytes pushed; none models the indexing panic. -/
def loopZ' : List Nat → Nat → Option (Nat × List Nat)
  | pt, p =>
    if p = Z then
      match pt with
      | pb :: pt' =>
        let p' := if pb = 0 then A - 1 else pb
        match loopZ' pt' p' with
        | some (pf, buf) => some (pf, Z :: buf)
        | none => none
      | [] => none
    else
      some (p, [])

/-- Middle character n - (n - p) / 2 of the source, with u8 subtraction:
none models the underflow when n < p. -/
def midChar (p n : Nat) : Option Nat :=
  if n < p then none else some (n - (n - p) / 2)

/-- The core procedure the_original_algorith_with_ascii_digits of the
source, on byte lists.  none models a panic (out-of-bounds indexing, the
u8 overflow of p + 1 when p = 255, or the u8 underflow inside the middle
character computation). -/
def midBytes (prev next : List Nat) : Option (List Nat) :=
  match loop1' (prev ++ [0]) (next ++ [0]) with
  | none => none
  | some (p, n, buf) =>
    if p = A - 1 then
      match loopA' ((next ++ [0]).drop (buf.length + 1)) n with
      | none => none
      | some (n2, bufA) =>
        if n2 = B then
          (midChar p (Z + 1)).map (fun m => buf ++ bufA ++ [A, m])
        else
          (midChar p n2).map (fun m => buf ++ bufA ++ [m])
    else if p = 255 then none
    else if p + 1 = n then
      match (prev ++ [0]).drop (buf.length + 1) with
      | [] => none
      | pb :: pt =>
        let p1 := if pb = 0 then A - 1 else pb
        match loopZ' pt p1 with
        | none => none
        | some (pf, bufZ) =>
          (midChar pf (Z + 1)).map (fun m => buf ++ p :: bufZ ++ [m])
    else
      (midChar p n).map (fun m => buf ++ [m])

/-- Standard UTF-8 validity of a byte sequence (RFC 3629), the check
performed by String::from_utf8 in the wrapper mid_string. -/
def utf8Cont (b : Nat) : Bool :=
  0x80 ≤ b && b ≤ 0xBF

/-- Permitted second byte of a three-byte UTF-8 sequence headed by b. -/
def utf8Mid3 (b b1 : Nat) : Bool :=
  if b = 0xE0 then 0xA0 ≤ b1 && b1 ≤ 0xBF
  else if b = 0xED then 0x80 ≤ b1 && b1 ≤ 0x9F
  else utf8Cont b1

/-- Permitted second byte of a four-byte UTF-8 sequence headed by b. -/
def utf8Mid4 (b b1 : Nat) : Bool :=
  if b = 0xF0 then 0x90 ≤ b1 && b1 ≤ 0xBF
  else if b = 0xF4 then 0x80 ≤ b1 && b1 ≤ 0x8F
  else utf8Cont b1

/-- Decides whether a byte list is a valid UTF-8 encoding. -/
def utf8Valid : List Nat → Bool
  | [] => true
  | b :: rest =>
    if b < 0x80 then utf8Valid rest
    else if b < 0xC2 then false
    else if b ≤ 0xDF then
      match rest with
      | [] => false
      | b1 :: r => utf8Cont b1 && utf8Valid r
    else if b ≤ 0xEF then
      match rest with
      | [] => false
      | b1 :: r1 =>
        match r1 with
        | [] => false
        | b2 :: r => utf8Mid3 b b1 && utf8Cont b2 && utf8Valid r
    else if b ≤ 0xF4 then
      match rest with
      | [] => false
      | b1 :: r1 =>
        match r1 with
        | [] => false
        | b2 :: r2 =>
          match r2 with
          | [] => false
          | b3 :: r => utf8Mid4 b b1 && utf8Cont b2 && utf8Cont b3 && utf8Valid r
    else false

/-- The public wrapper mid_string: run the core on the input bytes and
convert the produced bytes back with String::from_utf8(..).unwrap().
none models a panic, either inside the core or at the unwrap when the
produced bytes are not valid UTF-8. -/
def midString (prev next : List Nat) : Option (List Nat) :=
  match midBytes prev next with
  | none => none
  | some b => if utf8Valid b then some b else none

/-- Strict lexicographic order on byte lists: compare byte by byte, a
strict prefix is smaller than any of its extensions. -/
def lexLt : List Nat → List Nat → Bool
  | _, [] => false
  | [], _ :: _ => true
  | a :: as, b :: bs =>
    if a < b then true
    else if a = b then lexLt as bs
    else false

/-- Every byte of the list is an ASCII lowercase letter. -/
def Lowercase (l : List Nat) : Prop :=
  ∀ x ∈ l, A ≤ x ∧ x ≤ Z

instance (l : List Nat) : Decidable (Lowercase l) :=
  List.decidableBAll _ l

/-- The pairs on which the ordering invariant of the algorithm breaks:
next is prev followed by a nonempty run of the letter a (there is no
lowercase string strictly between prev and prev ++ [a] at all, and the
algorithm answers next ++ [n-char] on every such pair). -/
def isBad (prev next : List Nat) : Bool :=
  (next.take prev.length == prev) &&
    decide (prev.length < next.length) &&
    (next.drop prev.length).all (fun x => x == A)

/-- u is an initial segment of v. -/
def IsPre (u v : List Nat) : Prop :=
  ∃ w, u ++ w = v

/-- Longest common prefix of two byte lists. -/
def lcp : List Nat → List Nat → List Nat
  | x :: xs, y :: ys => if x = y then x :: lcp xs ys else []
  | _, _ => []

/-- Fueled form of the first loop: one unit of fuel is spent per
iteration of the while loop.  The outer none means the fuel ran out;
some (r, rem) means the loop finished with result r (none standing for
the indexing panic, exactly as in loop1') and rem units of fuel left. -/
def loop1F : Nat → List Nat → List Nat → Option (Option (Nat × Nat × List Nat) × Nat)
  | 0, _, _ => none
  | fuel + 1, pb :: pt, nb :: nt =>
    let p := if pb = 0 then A - 1 else pb
    let n := if nb = 0 then Z + 1 else nb
    if p = n then
      match loop1F fuel pt nt with
      | none => none
      | some (none, rem) => some (none, rem)
      | some (some (pf, nf, buf), rem) => some (some (pf, nf, p :: buf), rem)
    else
      some (some (p, n, []), fuel)
  | fuel + 1, _, _ => some (none, fuel)

/-- Fueled form of the a-run loop; outer none means the fuel ran out. -/
def loopAF : Nat → List Nat → Nat → Option (Option (Nat × List Nat))
  | 0, _, _ => none
  | fuel + 1, nt, n =>
    if n = A then
      match nt with
      | nb :: nt' =>
        let n' := if nb = 0 then Z + 1 else nb
        match loopAF fuel nt' n' with
        | none => none
        | some none => some none
        | some (some (nf, buf)) => some (some (nf, A :: buf))
      | [] => some none
    else
      some (some (n, []))

/-- Fueled form of the z-run loop; outer none means the fuel ran out. -/
def loopZF : Nat → List Nat → Nat → Option (Option (Nat × List Nat))
  | 0, _, _ => none
  | fuel + 1, pt, p =>
    if p = Z then
      match pt with
      | pb :: pt' =>
        let p' := if pb = 0 then A - 1 else pb
        match loopZF fuel pt' p' with
        | none => none
        | some none => some none
        | some (some (pf, buf)) => some (some (pf, Z :: buf))
      | [] => some none
    else
      some (some (p, []))

/-- Fueled form of the whole core procedure: the while loops of the source
run on a shared budget of fuel, one unit per loop iteration, threaded from
the first loop into whichever of the two run loops executes.  The outer
none means the budget was exhausted; some r means the procedure completed
with the outcome r of midBytes (so some none is a completed panic). -/
def midBytesF (fuel : Nat) (prev next : List Nat) : Option (Option (List Nat)) :=
  match loop1F fuel (prev ++ [0]) (next ++ [0]) with
  | none => none
  | some (none, _) => some none
  | some (some (p, n, buf), rem) =>
    if p = A - 1 then
      match loopAF rem ((next ++ [0]).drop (buf.length + 1)) n with
      | none => none
      | some none => some none
      | some (some (n2, bufA)) =>
        if n2 = B then
          some ((midChar p (Z + 1)).map (fun m => buf ++ bufA ++ [A, m]))
        else
          some ((midChar p n2).map (fun m => buf ++ bufA ++ [m]))
    else if p = 255 then some none
    else if p + 1 = n then
      match (prev ++ [0]).drop (buf.length + 1) with
      | [] => some none
      | pb :: pt =>
        let p1 := if pb = 0 then A - 1 else pb
        match loopZF rem pt p1 with
        | none => none
        | some none => some none
        | some (some (pf, bufZ)) =>
          some ((midChar pf (Z + 1)).map (fun m => buf ++ p :: bufZ ++ [m]))
    else
      some ((midChar p n).map (fun m => buf ++ [m]))

end Midstring


namespace Midstring

/-- The empty list is lexicographically below every nonempty list. -/
theorem lexLt_nil (y : Nat) (t : List Nat) : lexLt [] (y :: t) = true := rfl

/-- Nothing is lexicographically below the empty list. -/
theorem lexLt_to_nil (l : List Nat) : lexLt l [] = false := by
  cases l <;> rfl

/-- Comparing two lists with equal heads compares the tails. -/
theorem lexLt_cons_self (x : Nat) (u v : List Nat) :
    lexLt (x :: u) (x :: v) = lexLt u v := by
  simp [lexLt]

/-- A strictly smaller head decides the comparison. -/
theorem lexLt_cons_of_lt {a b : Nat} (h : a < b) (u v : List Nat) :
    lexLt (a :: u) (b :: v) = true := by
  simp [lexLt, h]

/-- Unfolding of the comparison on two nonempty lists. -/
theorem lexLt_cons_iff (a b : Nat) (u v : List Nat) :
    lexLt (a :: u) (b :: v) = true ↔ a < b ∨ (a = b ∧ lexLt u v = true) := by
  by_cases hlt : a < b
  · simp [lexLt, hlt]
  · by_cases heq : a = b
    · subst heq; simp [lexLt, hlt]
    · simp [lexLt, hlt, heq]

/-- A common prefix can be stripped from a lexicographic comparison. -/
theorem lexLt_append_left (c u v : List Nat) :
    lexLt (c ++ u) (c ++ v) = lexLt u v := by
  induction c with
  | nil => rfl
  | cons x xs ih => simpa [lexLt_cons_self] using ih

/-- A list is lexicographically below any of its strict extensions. -/
theorem lexLt_append_of_ne_nil (l u : List Nat) (h : u ≠ []) :
    lexLt l (l ++ u) = true := by
  induction l with
  | nil => cases u with
    | nil => exact absurd rfl h
    | cons y t => rfl
  | cons x xs ih => simpa [lexLt_cons_self] using ih

/-- The empty list is an initial segment of every list. -/
theorem IsPre_nil (v : List Nat) : IsPre [] v := ⟨v, rfl⟩

/-- Initial segments of a nonempty list. -/
theorem IsPre_cons_iff (x y : Nat) (u v : List Nat) :
    IsPre (x :: u) (y :: v) ↔ x = y ∧ IsPre u v := by
  constructor
  · rintro ⟨w, hw⟩
    injection hw with h1 h2
    exact ⟨h1, w, h2⟩
  · rintro ⟨rfl, w, hw⟩
    exact ⟨w, by rw [List.cons_append, hw]⟩

/-- An initial segment is no longer than the whole list. -/
theorem IsPre_length {u v : List Nat} (h : IsPre u v) : u.length ≤ v.length := by
  obtain ⟨w, hw⟩ := h
  subst hw
  simp

/-- Initial segments extend along a shared head. -/
theorem IsPre_cons (x : Nat) {u v : List Nat} (h : IsPre u v) :
    IsPre (x :: u) (x :: v) := by
  obtain ⟨w, hw⟩ := h
  exact ⟨w, by rw [List.cons_append, hw]⟩

/-- A common prefix can be stripped from an initial-segment statement. -/
theorem IsPre_append_left_iff (c u v : List Nat) :
    IsPre (c ++ u) (c ++ v) ↔ IsPre u v := by
  induction c with
  | nil => simp [IsPre]
  | cons x xs ih => simpa [List.cons_append, IsPre_cons_iff] using ih

/-- Value of the middle-character computation when it does not underflow. -/
theorem midChar_eq {p n : Nat} (h : p ≤ n) : midChar p n = some (n - (n - p) / 2) := by
  simp [midChar, Nat.not_lt.mpr h]

/-- With a gap of at least two, the middle character lies strictly between
p and n. -/
theorem midChar_mem {p n : Nat} (h : p + 2 ≤ n) :
    ∃ m, midChar p n = some m ∧ p + 1 ≤ m ∧ m + 1 ≤ n := by
  refine ⟨n - (n - p) / 2, midChar_eq (by omega), ?_, ?_⟩
  · have h1 : (n - p) / 2 * 2 ≤ n - p := Nat.div_mul_le_self _ _
    omega
  · have h2 : 1 ≤ (n - p) / 2 := by
      rw [Nat.le_div_iff_mul_le (by norm_num)]
      omega
    omega

/-- A run of a given byte absorbs one more copy pushed after it. -/
theorem replicate_append_cons (k : Nat) (a : Nat) (l : List Nat) :
    List.replicate k a ++ a :: l = List.replicate (k + 1) a ++ l := by
  rw [List.replicate_succ', List.append_assoc]
  rfl

/-- Lowercase letters are nonzero bytes. -/
theorem Lowercase.ne_zero {l : List Nat} (h : Lowercase l) : ∀ x ∈ l, x ≠ 0 := by
  intro x hx
  have := h x hx
  simp [A, Z] at this
  omega

/-- Each byte of a lowercase list is below 0x80. -/
theorem Lowercase.lt_128 {l : List Nat} (h : Lowercase l) : ∀ x ∈ l, x < 0x80 := by
  intro x hx
  have := h x hx
  simp [A, Z] at this
  omega

/-- Lowercase-ness of a cons. -/
theorem Lowercase_cons_iff (x : Nat) (l : List Nat) :
    Lowercase (x :: l) ↔ (A ≤ x ∧ x ≤ Z) ∧ Lowercase l := by
  simp [Lowercase]

/-- Lowercase-ness of an append. -/
theorem Lowercase_append_iff (u v : List Nat) :
    Lowercase (u ++ v) ↔ Lowercase u ∧ Lowercase v := by
  simp only [Lowercase, List.mem_append, or_imp, forall_and]
  tauto

/-- Lowercase-ness of a run. -/
theorem Lowercase_replicate (k a : Nat) (h1 : A ≤ a) (h2 : a ≤ Z) :
    Lowercase (List.replicate k a) := by
  intro x hx
  rw [List.eq_of_mem_replicate hx]
  exact ⟨h1, h2⟩

/-- Lowercase-ness of a single byte. -/
theorem Lowercase_single (v : Nat) (h1 : A ≤ v) (h2 : v ≤ Z) : Lowercase [v] := by
  intro x hx
  simp at hx
  subst hx
  exact ⟨h1, h2⟩

/-- A sequence of bytes all below 0x80 is valid UTF-8. -/
theorem utf8Valid_of_ascii : ∀ l : List Nat, (∀ x ∈ l, x < 0x80) → utf8Valid l = true := by
  intro l
  induction l with
  | nil => intro; rfl
  | cons b rest ih =>
    intro h
    have hb : b < 0x80 := h b (by simp)
    have step : utf8Valid (b :: rest) = utf8Valid rest := by
      unfold utf8Valid
      rw [if_pos hb, utf8Valid.eq_def]
    rw [step]
    exact ih (fun x hx => h x (by simp [hx]))

/-- On lowercase outputs the UTF-8 conversion of the wrapper succeeds. -/
theorem midString_eq_of_lower {prev next b : List Nat}
    (h : midBytes prev next = some b) (hb : Lowercase b) :
    midString prev next = some b := by
  rw [midString, h]
  simp [utf8Valid_of_ascii b hb.lt_128]

/-- Every lowercase list splits off its maximal leading run of a given
byte. -/
theorem exists_leading_run (a : Nat) (l : List Nat) :
    ∃ k r, l = List.replicate k a ++ r ∧ (r = [] ∨ ∃ w t, r = w :: t ∧ w ≠ a) := by
  induction l with
  | nil => exact ⟨0, [], rfl, Or.inl rfl⟩
  | cons x xs ih =>
    by_cases hx : x = a
    · subst hx
      obtain ⟨k, r, hl, hr⟩ := ih
      exact ⟨k + 1, r, by rw [List.replicate_succ, List.cons_append, ← hl], hr⟩
    · exact ⟨0, x :: xs, rfl, Or.inr ⟨x, xs, rfl, hx⟩⟩

end Midstring

namespace Midstring

/-- One unfolding step of the first loop on two nonempty suffixes. -/
theorem loop1'_cons_cons (pb nb : Nat) (pt nt : List Nat) :
    loop1' (pb :: pt) (nb :: nt) =
      (let p := if pb = 0 then A - 1 else pb
       let n := if nb = 0 then Z + 1 else nb
       if p = n then
         match loop1' pt nt with
         | some (pf, nf, buf) => some (pf, nf, p :: buf)
         | none => none
       else
         some (p, n, [])) := rfl

/-- Let-free form of the first-loop unfolding step. -/
theorem loop1'_cons_eq (pb nb : Nat) (pt nt : List Nat) :
    loop1' (pb :: pt) (nb :: nt) =
      (if (if pb = 0 then A - 1 else pb) = (if nb = 0 then Z + 1 else nb) then
        match loop1' pt nt with
        | some (pf, nf, buf) => some (pf, nf, (if pb = 0 then A - 1 else pb) :: buf)
        | none => none
      else
        some (if pb = 0 then A - 1 else pb, if nb = 0 then Z + 1 else nb, [])) := rfl

/-- The first loop panics once the left vector is exhausted. -/
theorem loop1'_nil_l (nt : List Nat) : loop1' [] nt = none := rfl

/-- The first loop panics once the right vector is exhausted. -/
theorem loop1'_nil_r (pt : List Nat) : loop1' pt [] = none := by
  cases pt <;> rfl

/-- One unfolding step of the a-run loop. -/
theorem loopA'_eq (nt : List Nat) (n : Nat) :
    loopA' nt n =
      (if n = A then
        match nt with
        | nb :: nt' =>
          match loopA' nt' (if nb = 0 then Z + 1 else nb) with
          | some (nf, buf) => some (nf, A :: buf)
          | none => none
        | [] => none
      else some (n, [])) := by
  rw [loopA'.eq_def]

/-- The a-run loop exits at once when the current value is not an a. -/
theorem loopA'_not_a (nt : List Nat) (n : Nat) (h : n ≠ A) : loopA' nt n = some (n, []) := by
  rw [loopA'_eq, if_neg h]

/-- The a-run loop advances when the current value is an a. -/
theorem loopA'_a_cons (nb : Nat) (nt' : List Nat) :
    loopA' (nb :: nt') A =
      match loopA' nt' (if nb = 0 then Z + 1 else nb) with
      | some (nf, buf) => some (nf, A :: buf)
      | none => none := by
  rw [loopA'_eq, if_pos rfl]

/-- One unfolding step of the z-run loop. -/
theorem loopZ'_eq (pt : List Nat) (p : Nat) :
    loopZ' pt p =
      (if p = Z then
        match pt with
        | pb :: pt' =>
          match loopZ' pt' (if pb = 0 then A - 1 else pb) with
          | some (pf, buf) => some (pf, Z :: buf)
          | none => none
        | [] => none
      else some (p, [])) := by
  rw [loopZ'.eq_def]

/-- The z-run loop exits at once when the current value is not a z. -/
theorem loopZ'_not_z (pt : List Nat) (p : Nat) (h : p ≠ Z) : loopZ' pt p = some (p, []) := by
  rw [loopZ'_eq, if_neg h]

/-- The z-run loop advances when the current value is a z. -/
theorem loopZ'_z_cons (pb : Nat) (pt' : List Nat) :
    loopZ' (pb :: pt') Z =
      match loopZ' pt' (if pb = 0 then A - 1 else pb) with
      | some (pf, buf) => some (pf, Z :: buf)
      | none => none := by
  rw [loopZ'_eq, if_pos rfl]

/-- Entered on a maximal run of a in next, the a-run loop copies the whole
run and stops on the value right after it. -/
theorem loopA'_run (k : Nat) (r2 : List Nat) (h : vN r2 ≠ A) :
    loopA' (List.replicate k A ++ (r2 ++ [0])) A = some (vN r2, List.replicate (k + 1) A) := by
  induction k with
  | zero =>
    cases r2 with
    | nil => decide
    | cons w r3 =>
      have hv : (if w = 0 then Z + 1 else w) = vN (w :: r3) := rfl
      rw [List.replicate_zero, List.nil_append, List.cons_append, loopA'_a_cons, hv,
        loopA'_not_a _ _ h]
      rfl
  | succ k ih =>
    have hA0 : (if A = 0 then Z + 1 else A) = A := by norm_num [A]
    rw [List.replicate_succ, List.cons_append, loopA'_a_cons, hA0, ih]
    rfl

/-- Entered on a maximal run of z in prev, the z-run loop copies the whole
run and stops on the value right after it. -/
theorem loopZ'_run (k : Nat) (r2 : List Nat) (h : vP r2 ≠ Z) :
    loopZ' (List.replicate k Z ++ (r2 ++ [0])) Z = some (vP r2, List.replicate (k + 1) Z) := by
  induction k with
  | zero =>
    cases r2 with
    | nil => decide
    | cons w r3 =>
      have hv : (if w = 0 then A - 1 else w) = vP (w :: r3) := rfl
      rw [List.replicate_zero, List.nil_append, List.cons_append, loopZ'_z_cons, hv,
        loopZ'_not_z _ _ h]
      rfl
  | succ k ih =>
    have hZ0 : (if Z = 0 then A - 1 else Z) = Z := by norm_num [Z]
    rw [List.replicate_succ, List.cons_append, loopZ'_z_cons, hZ0, ih]
    rfl

end Midstring

namespace Midstring

/-- A shared first byte is copied and the procedure continues exactly as
on the tails. -/
theorem midBytes_cons (x : Nat) (hx : x ≠ 0) (p n : List Nat) :
    midBytes (x :: p) (x :: n) = (midBytes p n).map (fun b => x :: b) := by
  have hstep : loop1' ((x :: p) ++ [0]) ((x :: n) ++ [0]) =
      match loop1' (p ++ [0]) (n ++ [0]) with
      | some r => some (r.1, r.2.1, x :: r.2.2)
      | none => none := by
    rw [List.cons_append, List.cons_append, loop1'_cons_cons]
    simp only [if_neg hx, if_pos rfl]
    cases loop1' (p ++ [0]) (n ++ [0]) with
    | none => rfl
    | some r => obtain ⟨pf, nf, buf⟩ := r; rfl
  unfold midBytes
  rw [hstep]
  cases hl : loop1' (p ++ [0]) (n ++ [0]) with
  | none => rfl
  | some r =>
    obtain ⟨pv, nv, buf⟩ := r
    have hdn : ((x :: n) ++ [0]).drop ((x :: buf).length + 1) = (n ++ [0]).drop (buf.length + 1) := by
      simp [List.drop_succ_cons]
    have hdp : ((x :: p) ++ [0]).drop ((x :: buf).length + 1) = (p ++ [0]).drop (buf.length + 1) := by
      simp [List.drop_succ_cons]
    simp only []
    rw [hdn, hdp]
    by_cases h1 : pv = A - 1
    · simp only [if_pos h1]
      cases hA : loopA' ((n ++ [0]).drop (buf.length + 1)) nv with
      | none => rfl
      | some r2 =>
        obtain ⟨n2, bufA⟩ := r2
        by_cases h2 : n2 = B
        · simp only [if_pos h2]
          cases hm : midChar pv (Z + 1) <;> simp
        · simp only [if_neg h2]
          cases hm : midChar pv n2 <;> simp
    · by_cases h255 : pv = 255
      · simp only [if_neg h1, if_pos h255, Option.map_none']
      · by_cases hc : pv + 1 = nv
        · simp only [if_neg h1, if_neg h255, if_pos hc]
          cases hdrop : (p ++ [0]).drop (buf.length + 1) with
          | nil => rfl
          | cons pb pt =>
            simp only []
            cases hz : loopZ' pt (if pb = 0 then A - 1 else pb) with
            | none => rfl
            | some r3 =>
              obtain ⟨pf, bufZ⟩ := r3
              cases hm : midChar pf (Z + 1) <;> simp <;> rfl
        · simp only [if_neg h1, if_neg h255, if_neg hc]
          cases hm : midChar pv nv <;> simp

end Midstring

namespace Midstring

/-- A shared prefix of nonzero bytes is copied verbatim and the procedure
continues exactly as on the remainders. -/
theorem midBytes_append (c p n : List Nat) (hc : ∀ x ∈ c, x ≠ 0) :
    midBytes (c ++ p) (c ++ n) = (midBytes p n).map (fun b => c ++ b) := by
  induction c with
  | nil =>
    simp only [List.nil_append]
    cases h : midBytes p n <;> simp
  | cons x xs ih =>
    have hx : x ≠ 0 := hc x (by simp)
    rw [List.cons_append, List.cons_append, midBytes_cons x hx,
      ih (fun y hy => hc y (by simp [hy]))]
    cases midBytes p n <;> simp

/-- On two equal inputs of nonzero bytes the procedure copies the whole
input and appends the letter n. -/
theorem midBytes_self (p : List Nat) (hp : ∀ x ∈ p, x ≠ 0) :
    midBytes p p = some (p ++ [0x6E]) := by
  have h := midBytes_append p [] [] hp
  have h0 : midBytes [] [] = some [0x6E] := by decide
  rw [h0] at h
  simpa using h

/-- General-gap divergence: when the first bytes differ and are neither
the exhausted-prev case nor consecutive, the output is the lone middle
character. -/
theorem midBytes_gap (x y : Nat) (pt nt : List Nat) (hx0 : x ≠ 0) (hy0 : y ≠ 0)
    (hne : x ≠ y) (hxA : x ≠ A - 1) (hx255 : x ≠ 255) (hcons : x + 1 ≠ y) :
    midBytes (x :: pt) (y :: nt) = (midChar x y).map (fun m => [m]) := by
  have hstep : loop1' ((x :: pt) ++ [0]) ((y :: nt) ++ [0]) = some (x, y, []) := by
    rw [List.cons_append, List.cons_append, loop1'_cons_cons]
    simp only [if_neg hx0, if_neg hy0, if_neg hne]
  unfold midBytes
  rw [hstep]
  simp only [if_neg hxA, if_neg hx255, if_neg hcons]
  cases midChar x y <;> simp

/-- Consecutive-characters divergence: the byte of prev is appended, the
trailing run of z in prev is copied, and the middle character is taken
against the upper sentinel. -/
theorem midBytes_consec (x t : Nat) (r2 nt : List Nat) (hx0 : x ≠ 0)
    (hxA : x ≠ A - 1) (hx255 : x ≠ 255) (hr2 : vP r2 ≠ Z) :
    midBytes (x :: (List.replicate t Z ++ r2)) ((x + 1) :: nt) =
      (midChar (vP r2) (Z + 1)).map (fun m => x :: (List.replicate t Z ++ [m])) := by
  have hy0 : x + 1 ≠ 0 := Nat.succ_ne_zero x
  have hne : x ≠ x + 1 := by omega
  have hstep : loop1' ((x :: (List.replicate t Z ++ r2)) ++ [0]) (((x + 1) :: nt) ++ [0]) =
      some (x, x + 1, []) := by
    rw [List.cons_append, List.cons_append, loop1'_cons_cons]
    simp only [if_neg hx0, if_neg hy0, if_neg hne]
  unfold midBytes
  rw [hstep]
  simp only [if_neg hxA, if_neg hx255, if_pos rfl, List.length_nil, List.cons_append,
    List.drop_succ_cons, List.drop_zero, List.append_assoc]
  cases t with
  | zero =>
    cases r2 with
    | nil =>
      simp only [List.replicate_zero, List.nil_append]
      try simp only [if_pos trivial]
      have hp0 : ((if (0 : Nat) = 0 then A - 1 else (0 : Nat)) : Nat) = A - 1 := rfl
      try rw [hp0]
      rw [loopZ'_not_z _ _ (show A - 1 ≠ Z by decide)]
      try simp only []
      have hvp : vP ([] : List Nat) = A - 1 := rfl
      rw [hvp]
      cases h : midChar (A - 1) (Z + 1) <;> simp [h]
    | cons w r3 =>
      have hv : (if w = 0 then A - 1 else w) = vP (w :: r3) := rfl
      simp only [List.replicate_zero, List.nil_append, List.cons_append]
      simp only [hv]
      rw [loopZ'_not_z _ _ hr2]
      simp only []
      cases h : midChar (vP (w :: r3)) (Z + 1) <;> simp [h]
  | succ t' =>
    simp only [List.replicate_succ, List.cons_append]
    have hZ : ((if Z = 0 then A - 1 else Z) : Nat) = Z := by norm_num [Z]
    simp only [hZ]
    rw [loopZ'_run t' r2 hr2]
    simp only []
    cases h : midChar (vP r2) (Z + 1) <;> simp [h, List.replicate_succ]

/-- Exhausted-prev divergence: prev is the whole shared prefix, the run of
a after it in next is copied, then either the b boundary is handled with
one more a against the upper sentinel or the middle character is taken
directly. -/
theorem midBytes_nil_left (j : Nat) (r2 : List Nat) (hA2 : vN r2 ≠ A) (hs : vN r2 ≠ A - 1) :
    midBytes [] (List.replicate j A ++ r2) =
      if vN r2 = B then
        (midChar (A - 1) (Z + 1)).map (fun m => List.replicate (j + 1) A ++ [m])
      else
        (midChar (A - 1) (vN r2)).map (fun m => List.replicate j A ++ [m]) := by
  cases j with
  | zero =>
    cases r2 with
    | nil => decide
    | cons w r3 =>
      have hv : (if w = 0 then Z + 1 else w) = vN (w :: r3) := rfl
      have hp0 : ((if (0 : Nat) = 0 then A - 1 else (0 : Nat)) : Nat) = A - 1 := rfl
      have hstep : loop1' ([] ++ [0]) ((List.replicate 0 A ++ (w :: r3)) ++ [0]) =
          some (A - 1, vN (w :: r3), []) := by
        simp only [List.replicate_zero, List.nil_append, List.cons_append]
        rw [loop1'_cons_eq, hp0, hv, if_neg (Ne.symm hs)]
      unfold midBytes
      rw [hstep]
      simp only [if_pos rfl, List.replicate_zero, List.nil_append, List.cons_append,
        List.length_nil, List.drop_succ_cons, List.drop_zero]
      rw [loopA'_not_a _ _ hA2]
      simp only []
      by_cases hb : vN (w :: r3) = B
      · simp only [if_pos hb]
        cases h : midChar (A - 1) (Z + 1) <;> simp [h]
      · simp only [if_neg hb]
        cases h : midChar (A - 1) (vN (w :: r3)) <;> simp [h]
  | succ j' =>
    have hA0 : (A : Nat) ≠ 0 := by norm_num [A]
    have hp0 : ((if (0 : Nat) = 0 then A - 1 else (0 : Nat)) : Nat) = A - 1 := rfl
    have hnA : ((if A = 0 then Z + 1 else A) : Nat) = A := by norm_num [A]
    have hstep : loop1' ([] ++ [0]) ((List.replicate (j' + 1) A ++ r2) ++ [0]) =
        some (A - 1, A, []) := by
      simp only [List.replicate_succ, List.cons_append, List.nil_append]
      rw [loop1'_cons_eq, hp0, hnA, if_neg (show A - 1 ≠ A by norm_num [A])]
    unfold midBytes
    rw [hstep]
    simp only [if_pos rfl, List.replicate_succ, List.cons_append, List.length_nil,
      List.drop_succ_cons, List.drop_zero, List.nil_append, List.append_assoc]
    rw [loopA'_run j' r2 hA2]
    simp only []
    by_cases hb : vN r2 = B
    · simp only [if_pos hb]
      cases h : midChar (A - 1) (Z + 1) <;>
        simp [h, replicate_append_cons, List.replicate_succ]
    · simp only [if_neg hb]
      cases h : midChar (A - 1) (vN r2) <;> simp [h, List.replicate_succ]

end Midstring

namespace Midstring

/-- The empty list is below any nonempty list. -/
theorem lexLt_nil_of_ne (l : List Nat) (h : l ≠ []) : lexLt [] l = true := by
  cases l with
  | nil => exact absurd rfl h
  | cons y t => rfl

/-- With distinct heads, a lexicographic comparison forces the heads to
compare. -/
theorem lexLt_head_lt {x y : Nat} {pt nt : List Nat}
    (h : lexLt (x :: pt) (y :: nt) = true) (hne : x ≠ y) : x < y := by
  rcases (lexLt_cons_iff x y pt nt).mp h with h1 | ⟨h2, _⟩
  · exact h1
  · exact absurd h2 hne

/-- Unfolded meaning of the degenerate-pair test. -/
theorem isBad_iff (p n : List Nat) :
    isBad p n = true ↔
      n.take p.length = p ∧ p.length < n.length ∧ ∀ x ∈ n.drop p.length, x = A := by
  simp [isBad, List.all_eq_true, and_assoc]

/-- The degenerate-pair test ignores a shared first byte. -/
theorem isBad_cons_iff (x : Nat) (p n : List Nat) :
    isBad (x :: p) (x :: n) = true ↔ isBad p n = true := by
  rw [isBad_iff, isBad_iff]
  simp [List.take_succ_cons, List.drop_succ_cons]

/-- A nonempty run of the letter a forms a degenerate pair with the empty
lower bound. -/
theorem isBad_nil_rep (j : Nat) (hj : 0 < j) : isBad [] (List.replicate j A) = true := by
  rw [isBad_iff]
  refine ⟨by simp, by simp [hj], ?_⟩
  intro x hx
  simp only [List.length_nil, List.drop_zero] at hx
  exact List.eq_of_mem_replicate hx

/-- A degenerate pair consists of a list and that list extended by a
nonempty all-a suffix. -/
theorem isBad_elim {p n : List Nat} (h : isBad p n = true) :
    ∃ d, d ≠ [] ∧ n = p ++ d ∧ ∀ x ∈ d, x = A := by
  obtain ⟨h1, h2, h3⟩ := (isBad_iff p n).mp h
  refine ⟨n.drop p.length, ?_, ?_, h3⟩
  · intro hd
    have := congrArg List.length hd
    simp [List.length_drop] at this
    omega
  · conv_lhs => rw [← List.take_append_drop p.length n]
    rw [h1]

/-- With a gap of at least three, the middle character clears the low end
by at least two. -/
theorem midChar_mem2 {p n : Nat} (h : p + 3 ≤ n) :
    ∃ m, midChar p n = some m ∧ p + 2 ≤ m ∧ m + 1 ≤ n := by
  refine ⟨n - (n - p) / 2, midChar_eq (by omega), ?_, ?_⟩
  · have h1 : (n - p) / 2 * 2 ≤ n - p := Nat.div_mul_le_self _ _
    omega
  · have h2 : 1 ≤ (n - p) / 2 := by
      rw [Nat.le_div_iff_mul_le (by norm_num)]
      omega
    omega

/-- Longest common prefix along a shared head. -/
theorem lcp_cons_eq (x : Nat) (u v : List Nat) : lcp (x :: u) (x :: v) = x :: lcp u v := by
  simp [lcp]

/-- Longest common prefix at a divergence. -/
theorem lcp_cons_ne {x y : Nat} (h : x ≠ y) (u v : List Nat) : lcp (x :: u) (y :: v) = [] := by
  simp [lcp, h]

/-- Longest common prefix with the empty list. -/
theorem lcp_nil_l (v : List Nat) : lcp [] v = [] := by
  cases v <;> rfl

end Midstring

namespace Midstring

/-- Middle character against the upper sentinel, with its bounds, for any
admissible left value (a sentinel or a letter below z). -/
theorem midChar_upper (q : Nat) (h1 : 0x60 ≤ q) (h2 : q ≤ 0x79) :
    ∃ m, midChar q (Z + 1) = some m ∧ B ≤ m ∧ m ≤ Z ∧ q + 1 ≤ m := by
  by_cases hv : q = 0x60
  · subst hv
    exact ⟨0x6E, by decide, by decide, by decide, by decide⟩
  · obtain ⟨m, h1', h2', h3'⟩ := midChar_mem (p := q) (n := Z + 1) (by
      show q + 2 ≤ 0x7B
      omega)
    have h3'' : m + 1 ≤ 0x7B := h3'
    refine ⟨m, h1', ?_, ?_, h2'⟩
    · show 0x62 ≤ m
      omega
    · show m ≤ 0x7A
      omega

/-- Middle character against the left sentinel, with its bounds, for an
upper letter at least c. -/
theorem midChar_low (w : Nat) (h1 : 0x63 ≤ w) :
    ∃ m, midChar (A - 1) w = some m ∧ B ≤ m ∧ m + 1 ≤ w := by
  obtain ⟨m, h1', h2', h3'⟩ := midChar_mem2 (p := A - 1) (n := w) (by
    show 0x60 + 3 ≤ w
    omega)
  exact ⟨m, h1', h2', h3'⟩

/-- Middle character for a general gap between two letters, with its
bounds. -/
theorem midChar_gap_mem (x y : Nat) (hx : 0x61 ≤ x) (hy : y ≤ 0x7A) (h : x + 2 ≤ y) :
    ∃ m, midChar x y = some m ∧ B ≤ m ∧ m ≤ Z ∧ x + 1 ≤ m ∧ m + 1 ≤ y := by
  obtain ⟨m, h1', h2', h3'⟩ := midChar_mem h
  refine ⟨m, h1', ?_, ?_, h2', h3'⟩
  · show 0x62 ≤ m
    omega
  · show m ≤ 0x7A
    omega

/-- Master characterization of the core procedure on lowercase inputs with
prev lexicographically below next: the run succeeds, the output is a
nonempty lowercase extension of the common prefix that is strictly above
prev, strictly below next whenever the pair is not degenerate, never an
initial segment of next, and always ends in a letter at least b. -/
theorem midBytes_master : ∀ prev next : List Nat, Lowercase prev → Lowercase next →
    lexLt prev next = true →
    ∃ mid, midBytes prev next = some mid ∧
      Lowercase mid ∧
      mid ≠ [] ∧
      lexLt prev mid = true ∧
      (isBad prev next = false → lexLt mid next = true) ∧
      ¬ IsPre mid next ∧
      (∃ u lst, mid = u ++ [lst] ∧ B ≤ lst) ∧
      IsPre (lcp prev next) mid := by
  intro prev
  induction prev with
  | nil =>
    intro next hp hn hlt
    have hne : next ≠ [] := by
      intro h
      rw [h, lexLt_to_nil] at hlt
      cases hlt
    obtain ⟨j, r2, hdec, hr⟩ := exists_leading_run A next
    subst hdec
    have hnr : Lowercase r2 := ((Lowercase_append_iff _ _).mp hn).2
    rcases hr with rfl | ⟨w, t2, rfl, hwA⟩
    · -- degenerate shape: next is a bare run of the letter a
      simp only [List.append_nil] at hne hn hlt ⊢
      have hj : 0 < j := by
        cases j with
        | zero => simp at hne
        | succ k => omega
      have hmain := midBytes_nil_left j [] (by decide) (by decide)
      rw [if_neg (by decide : ¬ vN [] = B)] at hmain
      have hmc : midChar (A - 1) (vN []) = some 0x6E := by decide
      rw [hmc] at hmain
      simp only [List.append_nil, Option.map_some'] at hmain
      refine ⟨List.replicate j A ++ [0x6E], hmain, ?_, by simp, ?_, ?_, ?_, ?_, ?_⟩
      · rw [Lowercase_append_iff]
        exact ⟨Lowercase_replicate j A (by decide) (by decide),
          Lowercase_single _ (by decide) (by decide)⟩
      · exact lexLt_nil_of_ne _ (by simp)
      · intro hbf
        have hbt := isBad_nil_rep j hj
        exact absurd hbt (by rw [hbf]; decide)
      · intro hpre
        have hlen := IsPre_length hpre
        simp at hlen
      · exact ⟨List.replicate j A, 0x6E, rfl, by decide⟩
      · rw [lcp_nil_l]
        exact IsPre_nil _
    · -- next diverges after its a-run at the letter w
      have hw : A ≤ w ∧ w ≤ Z := hnr w (by simp)
      have hw1 : (0x61 : Nat) ≤ w := hw.1
      have hw2 : w ≤ (0x7A : Nat) := hw.2
      have hw0 : w ≠ 0 := by omega
      have hvNw : vN (w :: t2) = w := if_neg hw0
      have hvA2 : vN (w :: t2) ≠ A := by rw [hvNw]; exact hwA
      have hvs : vN (w :: t2) ≠ A - 1 := by
        rw [hvNw]
        show w ≠ 0x60
        omega
      have hmain := midBytes_nil_left j (w :: t2) hvA2 hvs
      by_cases hb : w = B
      · -- the b boundary: one extra a, then the letter n
        rw [if_pos (by rw [hvNw]; exact hb)] at hmain
        have hmc : midChar (A - 1) (Z + 1) = some 0x6E := by decide
        rw [hmc] at hmain
        simp only [Option.map_some'] at hmain
        refine ⟨List.replicate (j + 1) A ++ [0x6E], hmain, ?_, by simp, ?_, ?_, ?_, ?_, ?_⟩
        · rw [Lowercase_append_iff]
          exact ⟨Lowercase_replicate _ A (by decide) (by decide),
            Lowercase_single _ (by decide) (by decide)⟩
        · exact lexLt_nil_of_ne _ (by simp)
        · intro _
          rw [← replicate_append_cons, lexLt_append_left]
          refine lexLt_cons_of_lt ?_ _ _
          rw [hb]
          decide
        · intro hpre
          rw [← replicate_append_cons, IsPre_append_left_iff, IsPre_cons_iff] at hpre
          refine absurd hpre.1 ?_
          rw [hb]
          decide
        · exact ⟨List.replicate (j + 1) A, 0x6E, rfl, by decide⟩
        · rw [lcp_nil_l]
          exact IsPre_nil _
      · -- a general divergence letter at least c
        have hb2 : w ≠ (0x62 : Nat) := hb
        have hwA2 : w ≠ (0x61 : Nat) := hwA
        rw [if_neg (by rw [hvNw]; exact hb), hvNw] at hmain
        obtain ⟨m, hmc, hmB, hmw⟩ := midChar_low w (by omega)
        rw [hmc] at hmain
        simp only [Option.map_some'] at hmain
        have hmB' : (0x62 : Nat) ≤ m := hmB
        refine ⟨List.replicate j A ++ [m], hmain, ?_, by simp, ?_, ?_, ?_, ?_, ?_⟩
        · rw [Lowercase_append_iff]
          refine ⟨Lowercase_replicate _ A (by decide) (by decide), ?_⟩
          intro v hv
          simp at hv
          subst hv
          constructor
          · show 0x61 ≤ v
            omega
          · show v ≤ 0x7A
            omega
        · exact lexLt_nil_of_ne _ (by simp)
        · intro _
          rw [lexLt_append_left]
          exact lexLt_cons_of_lt (by omega) _ _
        · intro hpre
          rw [IsPre_append_left_iff, IsPre_cons_iff] at hpre
          exact absurd hpre.1 (by omega)
        · exact ⟨List.replicate j A, m, rfl, hmB⟩
        · rw [lcp_nil_l]
          exact IsPre_nil _
  | cons x pt ih =>
    intro next hp hn hlt
    have hx : A ≤ x ∧ x ≤ Z := hp x (by simp)
    have hx1 : (0x61 : Nat) ≤ x := hx.1
    have hx2 : x ≤ (0x7A : Nat) := hx.2
    have hx0 : x ≠ 0 := by omega
    have hpt : Lowercase pt := ((Lowercase_cons_iff x pt).mp hp).2
    cases next with
    | nil =>
      rw [lexLt_to_nil] at hlt
      cases hlt
    | cons y nt =>
      have hy : A ≤ y ∧ y ≤ Z := hn y (by simp)
      have hy1 : (0x61 : Nat) ≤ y := hy.1
      have hy2 : y ≤ (0x7A : Nat) := hy.2
      have hnt : Lowercase nt := ((Lowercase_cons_iff y nt).mp hn).2
      by_cases hxy : x = y
      · -- shared first byte: recurse on the tails
        subst hxy
        have hlt' : lexLt pt nt = true := by rwa [lexLt_cons_self] at hlt
        obtain ⟨mid', h1, h2, h3, h4, h5, h6, h7, h8⟩ := ih nt hpt hnt hlt'
        refine ⟨x :: mid', ?_, ?_, by simp, ?_, ?_, ?_, ?_, ?_⟩
        · rw [midBytes_cons x hx0, h1]
          rfl
        · rw [Lowercase_cons_iff]
          exact ⟨hx, h2⟩
        · rw [lexLt_cons_self]
          exact h4
        · intro hbf
          have hbf' : isBad pt nt = false := by
            cases hq : isBad pt nt
            · rfl
            · exact absurd ((isBad_cons_iff x pt nt).mpr hq) (by rw [hbf]; decide)
          rw [lexLt_cons_self]
          exact h5 hbf'
        · intro hpre
          rw [IsPre_cons_iff] at hpre
          exact h6 hpre.2
        · obtain ⟨u, lst, hu, hlst⟩ := h7
          exact ⟨x :: u, lst, by rw [hu]; rfl, hlst⟩
        · rw [lcp_cons_eq]
          exact IsPre_cons x h8
      · -- first bytes differ
        have hxlty : x < y := lexLt_head_lt hlt hxy
        have hy0 : y ≠ 0 := by omega
        have hxA : x ≠ A - 1 := by
          show x ≠ 0x60
          omega
        have hx255 : x ≠ 255 := by omega
        by_cases hcons : x + 1 = y
        · -- consecutive characters
          obtain ⟨t, r2, hdec, hr⟩ := exists_leading_run Z pt
          subst hdec
          have hr2l : Lowercase r2 := ((Lowercase_append_iff _ _).mp hpt).2
          have hvPb : 0x60 ≤ vP r2 ∧ vP r2 ≤ 0x79 ∧ vP r2 ≠ Z := by
            rcases hr with rfl | ⟨w, t2, rfl, hwZ⟩
            · exact ⟨by decide, by decide, by decide⟩
            · have hww : A ≤ w ∧ w ≤ Z := hr2l w (by simp)
              have hww1 : (0x61 : Nat) ≤ w := hww.1
              have hww2 : w ≤ (0x7A : Nat) := hww.2
              have hw0 : w ≠ 0 := by omega
              have hwv : vP (w :: t2) = w := if_neg hw0
              rw [hwv]
              have hwZ' : w ≠ (0x7A : Nat) := hwZ
              exact ⟨by omega, by omega, hwZ⟩
          have hmain := midBytes_consec x t r2 nt hx0 hxA hx255 hvPb.2.2
          rw [hcons] at hmain
          obtain ⟨m, hmc, hmB, hmZ, hmgt⟩ := midChar_upper (vP r2) hvPb.1 hvPb.2.1
          rw [hmc] at hmain
          simp only [Option.map_some'] at hmain
          refine ⟨x :: (List.replicate t Z ++ [m]), hmain, ?_, by simp, ?_, ?_, ?_, ?_, ?_⟩
          · rw [Lowercase_cons_iff, Lowercase_append_iff]
            refine ⟨hx, Lowercase_replicate _ Z (by decide) (by decide), ?_⟩
            intro v hv
            simp at hv
            subst hv
            constructor
            · show 0x61 ≤ v
              have hmb2 : (0x62 : Nat) ≤ v := hmB
              omega
            · show v ≤ 0x7A
              exact hmZ
          · rw [lexLt_cons_self, lexLt_append_left]
            rcases hr with rfl | ⟨w, t2, rfl, hwZ⟩
            · exact lexLt_nil_of_ne _ (by simp)
            · have hww : A ≤ w ∧ w ≤ Z := hr2l w (by simp)
              have hww1 : (0x61 : Nat) ≤ w := hww.1
              have hw0 : w ≠ 0 := by omega
              have hwv : vP (w :: t2) = w := if_neg hw0
              refine lexLt_cons_of_lt ?_ _ _
              rw [hwv] at hmgt
              omega
          · intro _
            exact lexLt_cons_of_lt hxlty _ _
          · intro hpre
            rw [IsPre_cons_iff] at hpre
            exact absurd hpre.1 hxy
          · refine ⟨x :: List.replicate t Z, m, ?_, hmB⟩
            simp
          · rw [lcp_cons_ne hxy]
            exact IsPre_nil _
        · -- general gap
          have hmain := midBytes_gap x y pt nt hx0 hy0 hxy hxA hx255 hcons
          obtain ⟨m, hmc, hmB, hmZ, hm1, hm2⟩ := midChar_gap_mem x y hx1 hy2 (by omega)
          rw [hmc] at hmain
          simp only [Option.map_some'] at hmain
          refine ⟨[m], hmain, ?_, by simp, ?_, ?_, ?_, ?_, ?_⟩
          · intro v hv
            simp at hv
            subst hv
            constructor
            · show 0x61 ≤ v
              have hmb2 : (0x62 : Nat) ≤ v := hmB
              omega
            · show v ≤ 0x7A
              exact hmZ
          · exact lexLt_cons_of_lt (by omega) _ _
          · intro _
            exact lexLt_cons_of_lt (by omega) _ _
          · intro hpre
            rw [IsPre_cons_iff] at hpre
            exact absurd hpre.1 (by omega)
          · exact ⟨[], m, rfl, hmB⟩
          · rw [lcp_cons_ne hxy]
            exact IsPre_nil _

end Midstring

namespace Midstring

/-- The sentinel-extended prev read respects the ASCII bound. -/
theorem vp_lt (pb : Nat) (h : pb < 0x80) : (if pb = 0 then A - 1 else pb) < 0x80 := by
  split
  · decide
  · exact h

/-- The sentinel-extended next read respects the ASCII bound. -/
theorem vn_lt (nb : Nat) (h : nb < 0x80) : (if nb = 0 then Z + 1 else nb) < 0x80 := by
  split
  · decide
  · exact h

/-- The middle character never exceeds its upper argument. -/
theorem midChar_le {p n m : Nat} (h : midChar p n = some m) : m ≤ n := by
  rw [midChar] at h
  split at h
  · cases h
  · simp only [Option.some.injEq] at h
    omega

/-- On ASCII vectors the first loop only produces ASCII values. -/
theorem loop1'_ascii : ∀ (pt nt : List Nat) (pv nv : Nat) (buf : List Nat),
    (∀ x ∈ pt, x < 0x80) → (∀ x ∈ nt, x < 0x80) →
    loop1' pt nt = some (pv, nv, buf) →
    pv < 0x80 ∧ nv < 0x80 ∧ ∀ x ∈ buf, x < 0x80 := by
  intro pt
  induction pt with
  | nil =>
    intro nt pv nv buf _ _ h
    rw [loop1'_nil_l] at h
    cases h
  | cons pb pt' ihp =>
    intro nt pv nv buf hpa hna h
    cases nt with
    | nil =>
      rw [loop1'_nil_r] at h
      cases h
    | cons nb nt' =>
      have hpb : pb < 0x80 := hpa pb (by simp)
      have hnb : nb < 0x80 := hna nb (by simp)
      rw [loop1'_cons_eq] at h
      by_cases heq : (if pb = 0 then A - 1 else pb) = (if nb = 0 then Z + 1 else nb)
      · rw [if_pos heq] at h
        cases hrec : loop1' pt' nt' with
        | none =>
          rw [hrec] at h
          cases h
        | some r =>
          obtain ⟨pf, nf, buf'⟩ := r
          rw [hrec] at h
          simp only [Option.some.injEq, Prod.mk.injEq] at h
          obtain ⟨rfl, rfl, rfl⟩ := h
          obtain ⟨ih1, ih2, ih3⟩ := ihp nt' pf nf buf'
            (fun x hx => hpa x (by simp [hx])) (fun x hx => hna x (by simp [hx])) hrec
          refine ⟨ih1, ih2, ?_⟩
          intro x hx
          rcases List.mem_cons.mp hx with rfl | hx2
          · exact vp_lt pb hpb
          · exact ih3 x hx2
      · rw [if_neg heq] at h
        simp only [Option.some.injEq, Prod.mk.injEq] at h
        obtain ⟨rfl, rfl, rfl⟩ := h
        exact ⟨vp_lt pb hpb, vn_lt nb hnb, by simp⟩

/-- On an ASCII vector the a-run loop only produces ASCII values. -/
theorem loopA'_ascii : ∀ (nt : List Nat) (n n2 : Nat) (buf : List Nat),
    (∀ x ∈ nt, x < 0x80) → n < 0x80 →
    loopA' nt n = some (n2, buf) → n2 < 0x80 ∧ ∀ x ∈ buf, x < 0x80 := by
  intro nt
  induction nt with
  | nil =>
    intro n n2 buf _ hn h
    by_cases hA : n = A
    · rw [hA, loopA'_eq, if_pos rfl] at h
      cases h
    · rw [loopA'_not_a _ _ hA] at h
      simp only [Option.some.injEq, Prod.mk.injEq] at h
      obtain ⟨rfl, rfl⟩ := h
      exact ⟨hn, by simp⟩
  | cons nb nt' ihn =>
    intro n n2 buf hna hn h
    by_cases hA : n = A
    · subst hA
      rw [loopA'_a_cons] at h
      cases hrec : loopA' nt' (if nb = 0 then Z + 1 else nb) with
      | none =>
        rw [hrec] at h
        cases h
      | some r =>
        obtain ⟨nf, buf'⟩ := r
        rw [hrec] at h
        simp only [Option.some.injEq, Prod.mk.injEq] at h
        obtain ⟨rfl, rfl⟩ := h
        obtain ⟨ih1, ih2⟩ := ihn _ nf buf'
          (fun x hx => hna x (by simp [hx])) (vn_lt nb (hna nb (by simp))) hrec
        refine ⟨ih1, ?_⟩
        intro x hx
        rcases List.mem_cons.mp hx with rfl | hx2
        · decide
        · exact ih2 x hx2
    · rw [loopA'_not_a _ _ hA] at h
      simp only [Option.some.injEq, Prod.mk.injEq] at h
      obtain ⟨rfl, rfl⟩ := h
      exact ⟨hn, by simp⟩

/-- On an ASCII vector the z-run loop only produces ASCII values. -/
theorem loopZ'_ascii : ∀ (pt : List Nat) (p pf : Nat) (buf : List Nat),
    (∀ x ∈ pt, x < 0x80) → p < 0x80 →
    loopZ' pt p = some (pf, buf) → pf < 0x80 ∧ ∀ x ∈ buf, x < 0x80 := by
  intro pt
  induction pt with
  | nil =>
    intro p pf buf _ hpv h
    by_cases hZ : p = Z
    · rw [hZ, loopZ'_eq, if_pos rfl] at h
      cases h
    · rw [loopZ'_not_z _ _ hZ] at h
      simp only [Option.some.injEq, Prod.mk.injEq] at h
      obtain ⟨rfl, rfl⟩ := h
      exact ⟨hpv, by simp⟩
  | cons pb pt' ihp =>
    intro p pf buf hpa hpv h
    by_cases hZ : p = Z
    · subst hZ
      rw [loopZ'_z_cons] at h
      cases hrec : loopZ' pt' (if pb = 0 then A - 1 else pb) with
      | none =>
        rw [hrec] at h
        cases h
      | some r =>
        obtain ⟨pf', buf'⟩ := r
        rw [hrec] at h
        simp only [Option.some.injEq, Prod.mk.injEq] at h
        obtain ⟨rfl, rfl⟩ := h
        obtain ⟨ih1, ih2⟩ := ihp _ pf' buf'
          (fun x hx => hpa x (by simp [hx])) (vp_lt pb (hpa pb (by simp))) hrec
        refine ⟨ih1, ?_⟩
        intro x hx
        rcases List.mem_cons.mp hx with rfl | hx2
        · decide
        · exact ih2 x hx2
    · rw [loopZ'_not_z _ _ hZ] at h
      simp only [Option.some.injEq, Prod.mk.injEq] at h
      obtain ⟨rfl, rfl⟩ := h
      exact ⟨hpv, by simp⟩

end Midstring

namespace Midstring

/-- On ASCII inputs every byte the core procedure outputs is ASCII, so the
UTF-8 conversion of the wrapper cannot fail. -/
theorem midBytes_ascii (prev next : List Nat) (hp : ∀ x ∈ prev, x < 0x80)
    (hn : ∀ x ∈ next, x < 0x80) :
    ∀ b, midBytes prev next = some b → ∀ x ∈ b, x < 0x80 := by
  intro b h
  have hpa : ∀ x ∈ prev ++ [0], x < 0x80 := by
    intro x hx
    rcases List.mem_append.mp hx with h1 | h2
    · exact hp x h1
    · simp at h2
      subst h2
      decide
  have hna : ∀ x ∈ next ++ [0], x < 0x80 := by
    intro x hx
    rcases List.mem_append.mp hx with h1 | h2
    · exact hn x h1
    · simp at h2
      subst h2
      decide
  unfold midBytes at h
  cases hl : loop1' (prev ++ [0]) (next ++ [0]) with
  | none =>
    rw [hl] at h
    cases h
  | some r =>
    obtain ⟨pv, nv, buf⟩ := r
    rw [hl] at h
    obtain ⟨hpv, hnv, hbuf⟩ := loop1'_ascii _ _ _ _ _ hpa hna hl
    simp only [] at h
    by_cases h1 : pv = A - 1
    · rw [if_pos h1] at h
      cases hA : loopA' ((next ++ [0]).drop (buf.length + 1)) nv with
      | none =>
        rw [hA] at h
        cases h
      | some r2 =>
        obtain ⟨n2, bufA⟩ := r2
        rw [hA] at h
        simp only [] at h
        have hdropa : ∀ x ∈ (next ++ [0]).drop (buf.length + 1), x < 0x80 :=
          fun x hx => hna x (List.mem_of_mem_drop hx)
        obtain ⟨hn2, hbufA⟩ := loopA'_ascii _ _ _ _ hdropa hnv hA
        by_cases h2 : n2 = B
        · rw [if_pos h2] at h
          cases hm : midChar pv (Z + 1) with
          | none =>
            rw [hm] at h
            cases h
          | some m =>
            rw [hm] at h
            simp only [Option.map_some', Option.some.injEq] at h
            subst h
            have hmle : m ≤ Z + 1 := midChar_le hm
            have hmle' : m ≤ 0x7B := hmle
            intro x hx
            simp only [List.append_assoc, List.mem_append, List.mem_cons,
              List.mem_singleton, List.not_mem_nil] at hx
            rcases hx with hx | hx | hx
            · exact hbuf x hx
            · exact hbufA x hx
            · rcases hx with rfl | hx
              · decide
              · rcases hx with rfl | hx
                · omega
                · cases hx
        · rw [if_neg h2] at h
          cases hm : midChar pv n2 with
          | none =>
            rw [hm] at h
            cases h
          | some m =>
            rw [hm] at h
            simp only [Option.map_some', Option.some.injEq] at h
            subst h
            have hmle : m ≤ n2 := midChar_le hm
            intro x hx
            simp only [List.append_assoc, List.mem_append, List.mem_cons,
              List.mem_singleton, List.not_mem_nil] at hx
            rcases hx with hx | hx | hx
            · exact hbuf x hx
            · exact hbufA x hx
            · rcases hx with rfl | hx
              · omega
              · cases hx
    · rw [if_neg h1] at h
      by_cases h255 : pv = 255
      · rw [if_pos h255] at h
        cases h
      · rw [if_neg h255] at h
        by_cases hc : pv + 1 = nv
        · rw [if_pos hc] at h
          cases hdrop : (prev ++ [0]).drop (buf.length + 1) with
          | nil =>
            rw [hdrop] at h
            cases h
          | cons pb pt2 =>
            rw [hdrop] at h
            simp only [] at h
            have hpb : pb < 0x80 := by
              have : pb ∈ (prev ++ [0]).drop (buf.length + 1) := by
                rw [hdrop]
                simp
              exact hpa pb (List.mem_of_mem_drop this)
            have hpt2 : ∀ x ∈ pt2, x < 0x80 := by
              intro x hx
              have : x ∈ (prev ++ [0]).drop (buf.length + 1) := by
                rw [hdrop]
                simp [hx]
              exact hpa x (List.mem_of_mem_drop this)
            cases hz : loopZ' pt2 (if pb = 0 then A - 1 else pb) with
            | none =>
              rw [hz] at h
              cases h
            | some r3 =>
              obtain ⟨pf, bufZ⟩ := r3
              rw [hz] at h
              simp only [] at h
              obtain ⟨hpf, hbufZ⟩ := loopZ'_ascii _ _ _ _ hpt2 (vp_lt pb hpb) hz
              cases hm : midChar pf (Z + 1) with
              | none =>
                rw [hm] at h
                cases h
              | some m =>
                rw [hm] at h
                simp only [Option.map_some', Option.some.injEq] at h
                subst h
                have hmle : m ≤ Z + 1 := midChar_le hm
                have hmle' : m ≤ 0x7B := hmle
                intro x hx
                simp only [List.mem_append, List.mem_cons, List.mem_singleton] at hx
                rcases hx with (hx | hx | hx) | hx | hx
                · exact hbuf x hx
                · subst hx
                  exact hpv
                · exact hbufZ x hx
                · subst hx
                  omega
                · cases hx
        · rw [if_neg hc] at h
          cases hm : midChar pv nv with
          | none =>
            rw [hm] at h
            cases h
          | some m =>
            rw [hm] at h
            simp only [Option.map_some', Option.some.injEq] at h
            subst h
            have hmle : m ≤ nv := midChar_le hm
            intro x hx
            rcases List.mem_append.mp hx with hx | hx
            · exact hbuf x hx
            · simp at hx
              subst hx
              omega

end Midstring

namespace Midstring

/-- The fueled first loop stops on empty fuel. -/
theorem loop1F_zero (pt nt : List Nat) : loop1F 0 pt nt = none := rfl

/-- The fueled first loop completes with a panic on an exhausted left
vector, spending one step. -/
theorem loop1F_nil_l (f : Nat) (nt : List Nat) : loop1F (f + 1) [] nt = some (none, f) := by
  cases nt <;> rfl

/-- The fueled first loop completes with a panic on an exhausted right
vector, spending one step. -/
theorem loop1F_nil_r (f : Nat) (pt : List Nat) : loop1F (f + 1) pt [] = some (none, f) := by
  cases pt <;> rfl

/-- One unfolding step of the fueled first loop. -/
theorem loop1F_cons (f pb nb : Nat) (pt nt : List Nat) :
    loop1F (f + 1) (pb :: pt) (nb :: nt) =
      (if (if pb = 0 then A - 1 else pb) = (if nb = 0 then Z + 1 else nb) then
        match loop1F f pt nt with
        | none => none
        | some (none, rem) => some (none, rem)
        | some (some (pf, nf, buf), rem) =>
            some (some (pf, nf, (if pb = 0 then A - 1 else pb) :: buf), rem)
      else
        some (some (if pb = 0 then A - 1 else pb, if nb = 0 then Z + 1 else nb, []), f)) := rfl

/-- One unfolding step of the fueled a-run loop. -/
theorem loopAF_succ (f : Nat) (nt : List Nat) (n : Nat) :
    loopAF (f + 1) nt n =
      (if n = A then
        match nt with
        | nb :: nt' =>
          match loopAF f nt' (if nb = 0 then Z + 1 else nb) with
          | none => none
          | some none => some none
          | some (some (nf, buf)) => some (some (nf, A :: buf))
        | [] => some none
      else some (some (n, []))) := rfl

/-- One unfolding step of the fueled z-run loop. -/
theorem loopZF_succ (f : Nat) (pt : List Nat) (p : Nat) :
    loopZF (f + 1) pt p =
      (if p = Z then
        match pt with
        | pb :: pt' =>
          match loopZF f pt' (if pb = 0 then A - 1 else pb) with
          | none => none
          | some none => some none
          | some (some (pf, buf)) => some (some (pf, Z :: buf))
        | [] => some none
      else some (some (p, []))) := rfl

/-- The copied prefix of the first loop is shorter than either vector. -/
theorem loop1'_buf_lt : ∀ (pt nt : List Nat) (pv nv : Nat) (buf : List Nat),
    loop1' pt nt = some (pv, nv, buf) → buf.length < pt.length ∧ buf.length < nt.length := by
  intro pt
  induction pt with
  | nil =>
    intro nt pv nv buf h
    rw [loop1'_nil_l] at h
    cases h
  | cons pb pt' ihp =>
    intro nt pv nv buf h
    cases nt with
    | nil =>
      rw [loop1'_nil_r] at h
      cases h
    | cons nb nt' =>
      rw [loop1'_cons_eq] at h
      by_cases heq : (if pb = 0 then A - 1 else pb) = (if nb = 0 then Z + 1 else nb)
      · rw [if_pos heq] at h
        cases hrec : loop1' pt' nt' with
        | none =>
          rw [hrec] at h
          cases h
        | some r =>
          obtain ⟨pf, nf, buf'⟩ := r
          rw [hrec] at h
          simp only [Option.some.injEq, Prod.mk.injEq] at h
          obtain ⟨rfl, rfl, rfl⟩ := h
          obtain ⟨ih1, ih2⟩ := ihp nt' pf nf buf' hrec
          constructor <;> simp <;> omega
      · rw [if_neg heq] at h
        simp only [Option.some.injEq, Prod.mk.injEq] at h
        obtain ⟨rfl, rfl, rfl⟩ := h
        constructor <;> simp

/-- With fuel at least one more than the shorter vector, the fueled first
loop completes, agrees with the plain first loop, and on success spends
exactly one step per copied byte plus the exit step. -/
theorem loop1F_eq : ∀ (pt nt : List Nat) (fuel : Nat),
    min pt.length nt.length + 1 ≤ fuel →
    ∃ rem, loop1F fuel pt nt = some (loop1' pt nt, rem) ∧
      ∀ pv nv buf, loop1' pt nt = some (pv, nv, buf) → fuel = rem + buf.length + 1 := by
  intro pt
  induction pt with
  | nil =>
    intro nt fuel hf
    cases fuel with
    | zero => omega
    | succ f =>
      refine ⟨f, ?_, ?_⟩
      · rw [loop1F_nil_l, loop1'_nil_l]
      · intro pv nv buf h
        rw [loop1'_nil_l] at h
        cases h
  | cons pb pt' ihp =>
    intro nt fuel hf
    cases nt with
    | nil =>
      cases fuel with
      | zero => omega
      | succ f =>
        refine ⟨f, ?_, ?_⟩
        · rw [loop1F_nil_r, loop1'_nil_r]
        · intro pv nv buf h
          rw [loop1'_nil_r] at h
          cases h
    | cons nb nt' =>
      cases fuel with
      | zero =>
        simp [Nat.succ_min_succ] at hf
      | succ f =>
        have hf' : min pt'.length nt'.length + 1 ≤ f := by
          simp only [List.length_cons, Nat.succ_min_succ] at hf
          omega
        obtain ⟨rem, hFr, hremr⟩ := ihp nt' f hf'
        rw [loop1F_cons, loop1'_cons_eq]
        by_cases heq : (if pb = 0 then A - 1 else pb) = (if nb = 0 then Z + 1 else nb)
        · rw [if_pos heq, if_pos heq, hFr]
          cases hrec : loop1' pt' nt' with
          | none =>
            refine ⟨rem, rfl, ?_⟩
            intro pv nv buf h
            cases h
          | some r =>
            obtain ⟨pf, nf, buf'⟩ := r
            refine ⟨rem, rfl, ?_⟩
            intro pv nv buf h
            simp only [Option.some.injEq, Prod.mk.injEq] at h
            obtain ⟨rfl, rfl, rfl⟩ := h
            have := hremr pf nf buf' hrec
            simp only [List.length_cons]
            omega
        · rw [if_neg heq, if_neg heq]
          refine ⟨f, rfl, ?_⟩
          intro pv nv buf h
          simp only [Option.some.injEq, Prod.mk.injEq] at h
          obtain ⟨rfl, rfl, rfl⟩ := h
          simp

/-- With fuel beyond the vector length, the fueled a-run loop completes
and agrees with the plain a-run loop. -/
theorem loopAF_eq : ∀ (nt : List Nat) (n fuel : Nat), nt.length + 1 ≤ fuel →
    loopAF fuel nt n = some (loopA' nt n) := by
  intro nt
  induction nt with
  | nil =>
    intro n fuel hf
    cases fuel with
    | zero => omega
    | succ f =>
      rw [loopAF_succ, loopA'_eq]
      by_cases hA : n = A
      · rw [if_pos hA, if_pos hA]
      · rw [if_neg hA, if_neg hA]
  | cons nb nt' ihn =>
    intro n fuel hf
    cases fuel with
    | zero =>
      simp at hf
    | succ f =>
      rw [loopAF_succ, loopA'_eq]
      by_cases hA : n = A
      · rw [if_pos hA, if_pos hA]
        simp only []
        rw [ihn _ f (by simp at hf; omega)]
        cases loopA' nt' (if nb = 0 then Z + 1 else nb) with
        | none => rfl
        | some r =>
          obtain ⟨nf, buf⟩ := r
          rfl
      · rw [if_neg hA, if_neg hA]

/-- With fuel beyond the vector length, the fueled z-run loop completes
and agrees with the plain z-run loop. -/
theorem loopZF_eq : ∀ (pt : List Nat) (p fuel : Nat), pt.length + 1 ≤ fuel →
    loopZF fuel pt p = some (loopZ' pt p) := by
  intro pt
  induction pt with
  | nil =>
    intro p fuel hf
    cases fuel with
    | zero => omega
    | succ f =>
      rw [loopZF_succ, loopZ'_eq]
      by_cases hZ : p = Z
      · rw [if_pos hZ, if_pos hZ]
      · rw [if_neg hZ, if_neg hZ]
  | cons pb pt' ihp =>
    intro p fuel hf
    cases fuel with
    | zero =>
      simp at hf
    | succ f =>
      rw [loopZF_succ, loopZ'_eq]
      by_cases hZ : p = Z
      · rw [if_pos hZ, if_pos hZ]
        simp only []
        rw [ihp _ f (by simp at hf; omega)]
        cases loopZ' pt' (if pb = 0 then A - 1 else pb) with
        | none => rfl
        | some r =>
          obtain ⟨pf, buf⟩ := r
          rfl
      · rw [if_neg hZ, if_neg hZ]

end Midstring

namespace Midstring

/-- With a budget of max(len prev, len next) + 2 loop iterations the
fueled interpreter of the core completes and agrees with the plain
model: the whole procedure terminates within that many steps on every
pair of byte lists. -/
theorem midBytesF_eq (prev next : List Nat) (fuel : Nat)
    (h : max prev.length next.length + 2 ≤ fuel) :
    midBytesF fuel prev next = some (midBytes prev next) := by
  have hmin : min (prev ++ [0]).length (next ++ [0]).length + 1 ≤ fuel := by
    simp only [List.length_append, List.length_cons, List.length_nil]
    omega
  obtain ⟨rem, hF, hrem⟩ := loop1F_eq (prev ++ [0]) (next ++ [0]) fuel hmin
  unfold midBytesF midBytes
  rw [hF]
  cases hl : loop1' (prev ++ [0]) (next ++ [0]) with
  | none => rfl
  | some r =>
    obtain ⟨pv, nv, buf⟩ := r
    have hfc : fuel = rem + buf.length + 1 := hrem pv nv buf hl
    obtain ⟨hb1, hb2⟩ := loop1'_buf_lt _ _ _ _ _ hl
    simp only [List.length_append, List.length_cons, List.length_nil] at hb1 hb2
    simp only []
    by_cases h1 : pv = A - 1
    · rw [if_pos h1, if_pos h1]
      have hAeq : loopAF rem ((next ++ [0]).drop (buf.length + 1)) nv =
          some (loopA' ((next ++ [0]).drop (buf.length + 1)) nv) := by
        apply loopAF_eq
        have hld : ((next ++ [0]).drop (buf.length + 1)).length
            = (next ++ [0]).length - (buf.length + 1) := List.length_drop _ _
        simp only [List.length_append, List.length_cons, List.length_nil] at hld
        omega
      rw [hAeq]
      cases loopA' ((next ++ [0]).drop (buf.length + 1)) nv with
      | none => rfl
      | some r2 =>
        obtain ⟨n2, bufA⟩ := r2
        simp only []
        by_cases h2 : n2 = B
        · rw [if_pos h2, if_pos h2]
        · rw [if_neg h2, if_neg h2]
    · rw [if_neg h1, if_neg h1]
      by_cases h255 : pv = 255
      · rw [if_pos h255, if_pos h255]
      · rw [if_neg h255, if_neg h255]
        by_cases hc : pv + 1 = nv
        · rw [if_pos hc, if_pos hc]
          cases hdrop : (prev ++ [0]).drop (buf.length + 1) with
          | nil => rfl
          | cons pb pt2 =>
            simp only []
            have hlen2 : (prev ++ [0]).length - (buf.length + 1) = pt2.length + 1 := by
              have h' := congrArg List.length hdrop
              rw [List.length_drop] at h'
              simpa using h'
            have hZeq : loopZF rem pt2 (if pb = 0 then A - 1 else pb) =
                some (loopZ' pt2 (if pb = 0 then A - 1 else pb)) := by
              apply loopZF_eq
              simp only [List.length_append, List.length_cons, List.length_nil] at hlen2
              omega
            rw [hZeq]
            cases loopZ' pt2 (if pb = 0 then A - 1 else pb) with
            | none => rfl
            | some r3 =>
              obtain ⟨pf, bufZ⟩ := r3
              rfl
        · rw [if_neg hc, if_neg hc]

end Midstring

namespace Midstring

/-- C1 counterexample: the claim asserts prev < mid_string(prev, next) < next
for every lowercase pair with prev < next, but on the pair ("", "a") the
procedure answers "an", which is lexicographically above next = "a". -/
theorem C1_counterexample :
    Lowercase [0x61] ∧ lexLt [] [0x61] = true ∧
    midString [] [0x61] = some [0x61, 0x6E] ∧
    lexLt [0x61, 0x6E] [0x61] = false := by
  refine ⟨by decide, by decide, by decide, by decide⟩

/-- C1 (amended): for ASCII-lowercase prev < next such that next is not
prev followed by a nonempty run of the letter a, mid_string succeeds and
returns a nonempty string strictly between prev and next. -/
theorem C1_amended (prev next : List Nat) (hp : Lowercase prev) (hn : Lowercase next)
    (hlt : lexLt prev next = true) (hgood : isBad prev next = false) :
    ∃ mid, midString prev next = some mid ∧ mid ≠ [] ∧
      lexLt prev mid = true ∧ lexLt mid next = true := by
  obtain ⟨mid, h1, h2, h3, h4, h5, _, _, _⟩ := midBytes_master prev next hp hn hlt
  exact ⟨mid, midString_eq_of_lower h1 h2, h3, h4, h5 hgood⟩

/-- C1 witness: the amended theorem applied at prev = "a", next = "c". -/
theorem C1_witness :
    ∃ mid, midString [0x61] [0x63] = some mid ∧ mid ≠ [] ∧
      lexLt [0x61] mid = true ∧ lexLt mid [0x63] = true :=
  C1_amended [0x61] [0x63] (by decide) (by decide) (by decide) (by decide)

/-- C2 counterexample: the claim asserts the core never crashes on any
byte pair, but on prev = "" and next = [0x60] (the backtick byte, valid
text) the first loop reads past the end of the prev vector — a Rust
indexing panic — and on prev = "b", next = "a" the middle-character
computation n - (n - p) / 2 underflows in u8. -/
theorem C2_counterexample :
    midBytes [] [0x60] = none ∧ midBytes [0x62] [0x61] = none := by
  exact ⟨by decide, by decide⟩

/-- C2 (amended): for ASCII-lowercase inputs with prev equal to or
lexicographically below next, the core runs to completion without any
panic. -/
theorem C2_amended (prev next : List Nat) (hp : Lowercase prev) (hn : Lowercase next)
    (hle : prev = next ∨ lexLt prev next = true) :
    (midBytes prev next).isSome = true := by
  rcases hle with rfl | hlt
  · rw [midBytes_self prev hp.ne_zero]
    rfl
  · obtain ⟨mid, h1, _⟩ := midBytes_master prev next hp hn hlt
    rw [h1]
    rfl

/-- C2 witness: the amended theorem applied at prev = next = "b". -/
theorem C2_witness : (midBytes [0x62] [0x62]).isSome = true :=
  C2_amended [0x62] [0x62] (by decide) (by decide) (Or.inl rfl)

/-- C3 counterexample: the claim asserts the final conversion can only
fail when an input is not valid text, but the valid UTF-8 inputs
[0xC2, 0xA2] (a cent sign) and [0xC4, 0x80] (a capital A with macron)
drive the core to output the lone byte 0xC3, which is not valid UTF-8,
so the unwrap in mid_string panics. -/
theorem C3_counterexample :
    utf8Valid [0xC2, 0xA2] = true ∧ utf8Valid [0xC4, 0x80] = true ∧
    midBytes [0xC2, 0xA2] [0xC4, 0x80] = some [0xC3] ∧
    utf8Valid [0xC3] = false ∧
    midString [0xC2, 0xA2] [0xC4, 0x80] = none := by
  refine ⟨by decide, by decide, by decide, by decide, by decide⟩

/-- C3 (amended): for ASCII inputs (every byte below 0x80), whenever the
core completes, its output is valid UTF-8, so the conversion step of
mid_string never panics. -/
theorem C3_amended (prev next : List Nat) (hp : ∀ x ∈ prev, x < 0x80)
    (hn : ∀ x ∈ next, x < 0x80) (b : List Nat) (hb : midBytes prev next = some b) :
    utf8Valid b = true ∧ midString prev next = some b := by
  have hascii := midBytes_ascii prev next hp hn b hb
  have hv := utf8Valid_of_ascii b hascii
  refine ⟨hv, ?_⟩
  rw [midString, hb]
  simp [hv]

/-- C3 witness: the amended theorem applied at prev = "a", next = "c". -/
theorem C3_witness :
    utf8Valid [0x62] = true ∧ midString [0x61] [0x63] = some [0x62] :=
  C3_amended [0x61] [0x63] (by decide) (by decide) [0x62] (by decide)

/-- C4: the core procedure terminates on every pair of finite byte lists,
including pairs violating the prev < next precondition: with a budget of
max(len prev, len next) + 2 loop iterations shared by its three loops the
fueled interpreter completes (possibly with a modelled panic) and agrees
with the plain model. -/
theorem C4_termination (prev next : List Nat) (fuel : Nat)
    (h : max prev.length next.length + 2 ≤ fuel) :
    midBytesF fuel prev next = some (midBytes prev next) :=
  midBytesF_eq prev next fuel h

/-- C4 witness: termination within the bound on a pair that violates the
precondition. -/
theorem C4_witness : midBytesF 6 [0x62] [0x61, 0x61] = some (midBytes [0x62] [0x61, 0x61]) :=
  C4_termination [0x62] [0x61, 0x61] 6 (by decide)

/-- C5: the fixed boundary outputs: mid_string("", "") = "n",
mid_string("", "i") = "e", and mid_string("", "b") = "an". -/
theorem C5_boundary_outputs :
    midString [] [] = some [0x6E] ∧
    midString [] [0x69] = some [0x65] ∧
    midString [] [0x62] = some [0x61, 0x6E] := by
  refine ⟨by decide, by decide, by decide⟩

/-- C6: for every lowercase pair with prev < next the output of
mid_string starts with the longest common prefix of prev and next,
and concretely mid_string("aaa", "aaz") = "aan". -/
theorem C6_shared_prefix :
    (∀ prev next : List Nat, Lowercase prev → Lowercase next → lexLt prev next = true →
      ∃ mid, midString prev next = some mid ∧ IsPre (lcp prev next) mid) ∧
    midString [0x61, 0x61, 0x61] [0x61, 0x61, 0x7A] = some [0x61, 0x61, 0x6E] := by
  constructor
  · intro prev next hp hn hlt
    obtain ⟨mid, h1, h2, _, _, _, _, _, h8⟩ := midBytes_master prev next hp hn hlt
    exact ⟨mid, midString_eq_of_lower h1 h2, h8⟩
  · decide

/-- C6 witness: the general statement applied at prev = "ab", next = "ad". -/
theorem C6_witness :
    ∃ mid, midString [0x61, 0x62] [0x61, 0x64] = some mid ∧
      IsPre (lcp [0x61, 0x62] [0x61, 0x64]) mid :=
  C6_shared_prefix.1 [0x61, 0x62] [0x61, 0x64] (by decide) (by decide) (by decide)

end Midstring

namespace Midstring

/-- C7: when the first differing bytes of prev and next are consecutive,
the algorithm appends prev's byte, copies the trailing run of z from
prev, and emits the middle character against the upper sentinel; and
concretely mid_string("abhs", "abit") = "abhw" and
mid_string("abhz", "abit") = "abhzn". -/
theorem C7_consecutive_carry :
    (∀ (c : List Nat) (x t : Nat) (r2 nt : List Nat),
      Lowercase c → A ≤ x → x ≤ Z → Lowercase r2 → vP r2 ≠ Z →
      ∃ m, midChar (vP r2) (Z + 1) = some m ∧
        midString (c ++ x :: (List.replicate t Z ++ r2)) (c ++ (x + 1) :: nt) =
          some (c ++ x :: (List.replicate t Z ++ [m]))) ∧
    midString [0x61, 0x62, 0x68, 0x73] [0x61, 0x62, 0x69, 0x74] =
      some [0x61, 0x62, 0x68, 0x77] ∧
    midString [0x61, 0x62, 0x68, 0x7A] [0x61, 0x62, 0x69, 0x74] =
      some [0x61, 0x62, 0x68, 0x7A, 0x6E] := by
  refine ⟨?_, by decide, by decide⟩
  intro c x t r2 nt hc hxA hxZ hr2 hvZ
  have hx1 : (0x61 : Nat) ≤ x := hxA
  have hx2 : x ≤ (0x7A : Nat) := hxZ
  have hx0 : x ≠ 0 := by omega
  have hxs : x ≠ A - 1 := by
    show x ≠ 0x60
    omega
  have hx255 : x ≠ 255 := by omega
  have hvPb : 0x60 ≤ vP r2 ∧ vP r2 ≤ 0x79 := by
    cases r2 with
    | nil => exact ⟨by decide, by decide⟩
    | cons w t2 =>
      have hww : A ≤ w ∧ w ≤ Z := hr2 w (by simp)
      have hww1 : (0x61 : Nat) ≤ w := hww.1
      have hww2 : w ≤ (0x7A : Nat) := hww.2
      have hw0 : w ≠ 0 := by omega
      have hwv : vP (w :: t2) = w := if_neg hw0
      rw [hwv]
      have hwZ : w ≠ (0x7A : Nat) := by
        intro hcontra
        apply hvZ
        rw [hwv, hcontra]
        rfl
      exact ⟨by omega, by omega⟩
  obtain ⟨m, hmc, hmB, hmZ, hmgt⟩ := midChar_upper (vP r2) hvPb.1 hvPb.2
  refine ⟨m, hmc, ?_⟩
  have hbytes := midBytes_consec x t r2 nt hx0 hxs hx255 hvZ
  rw [hmc] at hbytes
  simp only [Option.map_some'] at hbytes
  have happ := midBytes_append c (x :: (List.replicate t Z ++ r2)) ((x + 1) :: nt) hc.ne_zero
  rw [hbytes] at happ
  simp only [Option.map_some'] at happ
  refine midString_eq_of_lower happ ?_
  rw [Lowercase_append_iff, Lowercase_cons_iff, Lowercase_append_iff]
  refine ⟨hc, ⟨hxA, hxZ⟩, Lowercase_replicate _ Z (by decide) (by decide), ?_⟩
  refine Lowercase_single m ?_ ?_
  · show 0x61 ≤ m
    have hmb2 : (0x62 : Nat) ≤ m := hmB
    omega
  · show m ≤ 0x7A
    exact hmZ

/-- C7 witness: the general statement applied at the divergence of
prev = "hs" and next = "it". -/
theorem C7_witness :
    ∃ m, midChar (vP [0x73]) (Z + 1) = some m ∧
      midString ([] ++ 0x68 :: (List.replicate 0 Z ++ [0x73])) ([] ++ (0x68 + 1) :: [0x74]) =
        some ([] ++ 0x68 :: (List.replicate 0 Z ++ [m])) :=
  C7_consecutive_carry.1 [] 0x68 0 [0x73] [0x74] (by decide) (by decide) (by decide)
    (by decide) (by decide)

/-- C8: when prev is exhausted and next goes on with a run of a closed by
the letter b, the run is copied with one extra a and the letter n is
emitted; and concretely mid_string("abc", "abcab") = "abcaan" and
mid_string("abc", "abcb") = "abcan". -/
theorem C8_ab_boundary :
    (∀ (c : List Nat) (j : Nat) (r3 : List Nat),
      Lowercase c →
      midString c (c ++ (List.replicate j A ++ B :: r3)) =
        some (c ++ (List.replicate (j + 1) A ++ [0x6E]))) ∧
    midString [0x61, 0x62, 0x63] [0x61, 0x62, 0x63, 0x61, 0x62] =
      some [0x61, 0x62, 0x63, 0x61, 0x61, 0x6E] ∧
    midString [0x61, 0x62, 0x63] [0x61, 0x62, 0x63, 0x62] =
      some [0x61, 0x62, 0x63, 0x61, 0x6E] := by
  refine ⟨?_, by decide, by decide⟩
  intro c j r3 hc
  have hvB : vN (B :: r3) = B :=
    (if_neg (by decide : ¬(B = 0)) : (if B = 0 then Z + 1 else B) = B)
  have hA2 : vN (B :: r3) ≠ A := by
    rw [hvB]
    decide
  have hs : vN (B :: r3) ≠ A - 1 := by
    rw [hvB]
    decide
  have hmain := midBytes_nil_left j (B :: r3) hA2 hs
  rw [if_pos (by rw [hvB])] at hmain
  have hmc : midChar (A - 1) (Z + 1) = some 0x6E := by decide
  rw [hmc] at hmain
  simp only [Option.map_some'] at hmain
  have happ := midBytes_append c [] (List.replicate j A ++ B :: r3) hc.ne_zero
  rw [hmain] at happ
  simp only [List.append_nil, Option.map_some'] at happ
  refine midString_eq_of_lower happ ?_
  rw [Lowercase_append_iff, Lowercase_append_iff]
  exact ⟨hc, Lowercase_replicate _ A (by decide) (by decide),
    Lowercase_single _ (by decide) (by decide)⟩

/-- C8 witness: the general statement applied at c = "abc", an empty
a-run and an empty tail after the b. -/
theorem C8_witness :
    midString [0x61, 0x62, 0x63] ([0x61, 0x62, 0x63] ++ (List.replicate 0 A ++ B :: [])) =
      some ([0x61, 0x62, 0x63] ++ (List.replicate 1 A ++ [0x6E])) :=
  C8_ab_boundary.1 [0x61, 0x62, 0x63] 0 [] (by decide)

/-- C9 counterexample: the claim asserts the subdivision invariant for
every lowercase pair with prev < next, but with prev = "", next = "a"
the first call answers mid = "an", and the follow-up call
mid_string(mid, next) answers "au", which is not below next = "a". -/
theorem C9_counterexample :
    Lowercase [0x61] ∧ lexLt [] [0x61] = true ∧
    midString [] [0x61] = some [0x61, 0x6E] ∧
    midString [0x61, 0x6E] [0x61] = some [0x61, 0x75] ∧
    lexLt [0x61, 0x75] [0x61] = false := by
  refine ⟨by decide, by decide, by decide, by decide, by decide⟩

/-- C9 (amended): for ASCII-lowercase prev < next with next not prev
followed by a nonempty run of the letter a, the produced mid lies
strictly between, both pairs (prev, mid) and (mid, next) again satisfy
all those conditions — so subdivision can be repeated indefinitely — and
both follow-up calls again produce strictly-in-between strings. -/
theorem C9_amended (prev next : List Nat) (hp : Lowercase prev) (hn : Lowercase next)
    (hlt : lexLt prev next = true) (hgood : isBad prev next = false) :
    ∃ mid, midString prev next = some mid ∧
      Lowercase mid ∧ lexLt prev mid = true ∧ lexLt mid next = true ∧
      isBad prev mid = false ∧ isBad mid next = false ∧
      (∃ m1, midString prev mid = some m1 ∧ lexLt prev m1 = true ∧ lexLt m1 mid = true) ∧
      (∃ m2, midString mid next = some m2 ∧ lexLt mid m2 = true ∧ lexLt m2 next = true) := by
  obtain ⟨mid, h1, h2, h3, h4, h5, h6, h7, h8⟩ := midBytes_master prev next hp hn hlt
  have hmidnext := h5 hgood
  have hbad1 : isBad prev mid = false := by
    cases hq : isBad prev mid
    · rfl
    · exfalso
      obtain ⟨d, hd1, hd2, hd3⟩ := isBad_elim hq
      obtain ⟨u, lst, hu, hlst⟩ := h7
      rcases List.eq_nil_or_concat d with rfl | ⟨d', xlast, rfl⟩
      · exact hd1 rfl
      · have hxA : xlast = A := hd3 xlast (by simp)
        have hg1 : mid.getLast? = some lst := by
          rw [hu]
          exact List.getLast?_concat u
        have hg2 : mid.getLast? = some xlast := by
          rw [hd2, List.concat_eq_append, ← List.append_assoc]
          exact List.getLast?_concat _
        rw [hg1] at hg2
        have hlsteq : lst = xlast := Option.some.inj hg2
        rw [hlsteq, hxA] at hlst
        exact absurd hlst (by decide)
  have hbad2 : isBad mid next = false := by
    cases hq : isBad mid next
    · rfl
    · exfalso
      obtain ⟨d, hd1, hd2, hd3⟩ := isBad_elim hq
      exact h6 ⟨d, hd2.symm⟩
  obtain ⟨m1, g1, g2, g3, g4, g5, _, _, _⟩ := midBytes_master prev mid hp h2 h4
  obtain ⟨m2, k1, k2, k3, k4, k5, _, _, _⟩ := midBytes_master mid next h2 hn hmidnext
  exact ⟨mid, midString_eq_of_lower h1 h2, h2, h4, hmidnext, hbad1, hbad2,
    ⟨m1, midString_eq_of_lower g1 g2, g4, g5 hbad1⟩,
    ⟨m2, midString_eq_of_lower k1 k2, k4, k5 hbad2⟩⟩

/-- C9 witness: the amended theorem applied at prev = "a", next = "c". -/
theorem C9_witness :
    ∃ mid, midString [0x61] [0x63] = some mid ∧
      Lowercase mid ∧ lexLt [0x61] mid = true ∧ lexLt mid [0x63] = true ∧
      isBad [0x61] mid = false ∧ isBad mid [0x63] = false ∧
      (∃ m1, midString [0x61] mid = some m1 ∧ lexLt [0x61] m1 = true ∧ lexLt m1 mid = true) ∧
      (∃ m2, midString mid [0x63] = some m2 ∧ lexLt mid m2 = true ∧
        lexLt m2 [0x63] = true) :=
  C9_amended [0x61] [0x63] (by decide) (by decide) (by decide) (by decide)

/-- C10: for every lowercase pair with prev < next, mid_string succeeds
and every byte of its output is again an ASCII lowercase letter — the
sentinel values never reach the output. -/
theorem C10_alphabet_closed (prev next : List Nat) (hp : Lowercase prev)
    (hn : Lowercase next) (hlt : lexLt prev next = true) :
    ∃ mid, midString prev next = some mid ∧ Lowercase mid := by
  obtain ⟨mid, h1, h2, _⟩ := midBytes_master prev next hp hn hlt
  exact ⟨mid, midString_eq_of_lower h1 h2, h2⟩

/-- C10 witness: the theorem applied at prev = "", next = "m". -/
theorem C10_witness :
    ∃ mid, midString [] [0x6D] = some mid ∧ Lowercase mid :=
  C10_alphabet_closed [] [0x6D] (by decide) (by decide) (by decide)

end Midstring
